import Mathlib

/-!
Verification of the DataOrbit embedded document store (src/index.js) against
its specification.  The JavaScript code is shallowly embedded: documents are
association lists from field names to a `Value` type covering the primitive
JS values the store manipulates, and every store operation becomes a pure
function on an explicit state.

All definitions in the `DataOrbit` namespace are translated directly from the
source file; `Spec`-prefixed definitions restate the specification's wording
where a claim asks the two to be compared.
-/

namespace DataOrbit

/-- Primitive JavaScript values handled by the store: `undefined`, `null`,
booleans, numbers (integer-valued; the store's keys, counters and the data in
every claim are integers) and strings. -/
inductive Value where
  | undef : Value
  | null : Value
  | bool : Bool → Value
  | num : Int → Value
  | str : String → Value
deriving DecidableEq, Repr

/-- A document is a field-name-to-value mapping, as stored (`{...}` object). -/
abbrev Doc := List (String × Value)

instance {ε α : Type} [DecidableEq ε] [DecidableEq α] : DecidableEq (Except ε α) :=
  fun x y =>
    match x, y with
    | .ok a, .ok b =>
      if h : a = b then .isTrue (by rw [h]) else .isFalse (fun hc => h (Except.ok.inj hc))
    | .error a, .error b =>
      if h : a = b then .isTrue (by rw [h]) else .isFalse (fun hc => h (Except.error.inj hc))
    | .ok _, .error _ => .isFalse (fun hc => Except.noConfusion hc)
    | .error _, .ok _ => .isFalse (fun hc => Except.noConfusion hc)

/-- Property read `d[f]`: the value of field `f`, `undefined` when absent. -/
def getField (d : Doc) (f : String) : Value :=
  match d.find? (fun p => p.1 == f) with
  | some p => p.2
  | none => Value.undef

/-- Property write `d[f] = v`: replace an existing binding or append one. -/
def setField : Doc → String → Value → Doc
  | [], f, v => [(f, v)]
  | (g, w) :: t, f, v => if g == f then (g, v) :: t else (g, w) :: setField t f v

/-- JS `Number(string)` on the integer-literal fragment: the empty (or
all-whitespace) string converts to 0, optional-sign digit strings to their
value, anything else to NaN (`none`). -/
def strToNumber (s : String) : Option Int :=
  let t := s.trim
  if t = "" then some 0
  else if t.startsWith "-" then ((t.drop 1).toNat?).map (fun n => -(n : Int))
  else (t.toNat?).map (fun n => (n : Int))

/-- JS `ToNumber` on our value fragment; `none` is NaN. -/
def toNumber : Value → Option Int
  | Value.undef => none
  | .null => some 0
  | .bool b => some (if b then 1 else 0)
  | .num n => some n
  | .str s => strToNumber s

/-- JS `String(v)` / property-key coercion for primitive values. -/
def jsString : Value → String
  | Value.undef => "undefined"
  | .null => "null"
  | .bool b => if b then "true" else "false"
  | .num n => toString n
  | .str s => s

/-- JS `a < b`: lexicographic on two strings, numeric otherwise, false on NaN. -/
def jsLt : Value → Value → Bool
  | .str a, .str b => decide (a < b)
  | a, b =>
    match toNumber a, toNumber b with
    | some x, some y => decide (x < y)
    | _, _ => false

/-- JS `a > b`. -/
def jsGt : Value → Value → Bool
  | .str a, .str b => decide (b < a)
  | a, b =>
    match toNumber a, toNumber b with
    | some x, some y => decide (y < x)
    | _, _ => false

/-- JS `a <= b`. -/
def jsLe : Value → Value → Bool
  | .str a, .str b => decide (¬ b < a)
  | a, b =>
    match toNumber a, toNumber b with
    | some x, some y => decide (x ≤ y)
    | _, _ => false

/-- JS `a >= b`. -/
def jsGe : Value → Value → Bool
  | .str a, .str b => decide (¬ a < b)
  | a, b =>
    match toNumber a, toNumber b with
    | some x, some y => decide (y ≤ x)
    | _, _ => false

/-- JS strict equality `===` on our value fragment (no NaN or -0 inhabitants,
so it coincides with structural equality). -/
def strictEq (a b : Value) : Bool := decide (a = b)

/-- One comparison operator of a query operator object, with its operand.
`inList`/`ninList` carry `none` when the operand is not an array
(`Array.isArray` fails); `unknown` is any unrecognized operator key, which the
`switch` in `_matchesOperators` silently skips. -/
inductive QOp where
  | gt : Value → QOp
  | gte : Value → QOp
  | lt : Value → QOp
  | lte : Value → QOp
  | ne : Value → QOp
  | inList : Option (List Value) → QOp
  | ninList : Option (List Value) → QOp
  | unknown : String → QOp
deriving DecidableEq, Repr

/-- One `case` of the `switch` in `_matchesOperators` (src/index.js
lines 1101-1131): whether `value` passes a single operator. -/
def matchesOp (value : Value) : QOp → Bool
  | .gt v => jsGt value v
  | .gte v => jsGe value v
  | .lt v => jsLt value v
  | .lte v => jsLe value v
  | .ne v => !(strictEq value v)
  | .inList none => false
  | .inList (some vs) => vs.any (fun x => strictEq x value)
  | .ninList none => false
  | .ninList (some vs) => !(vs.any (fun x => strictEq x value))
  | .unknown _ => true

/-- `_matchesOperators` (src/index.js lines 1101-1131): the `for..in` loop
with an early `return false`, over the operator object's entries. -/
def matchesOperators (value : Value) : List QOp → Bool
  | [] => true
  | op :: rest =>
    if matchesOp value op then matchesOperators value rest else false

/-- A query constraint on one field: either a literal (compared with `!==`)
or an operator object. -/
inductive QConstraint where
  | lit : Value → QConstraint
  | ops : List QOp → QConstraint
deriving DecidableEq, Repr

/-- A query: field-name-to-constraint mapping (`for..in` iterates entries). -/
abbrev Query := List (String × QConstraint)

/-- `_matchesQuery` (src/index.js lines 1075-1092): loop over query fields;
operator objects dispatch to `_matchesOperators`, other values compare with
strict equality; early `return false`. -/
def matchesQuery (d : Doc) : Query → Bool
  | [] => true
  | (f, c) :: rest =>
    match c with
    | .ops l =>
      if matchesOperators (getField d f) l then matchesQuery d rest else false
    | .lit v =>
      if strictEq (getField d f) v then matchesQuery d rest else false

/-- Whether an operator is one of the seven supported comparison operators. -/
def isSupportedOp : QOp → Bool
  | .unknown _ => false
  | _ => true

/-- Whether a constraint draws only on the supported operator set. -/
def constraintSupported : QConstraint → Bool
  | .lit _ => true
  | .ops l => l.all isSupportedOp

/-- Spec wording, §4.3: a single field constraint "holds" — literal means
equality, an operator object means every operator in it is satisfied. -/
def SpecConstraintHolds (d : Doc) : String × QConstraint → Prop
  | (f, .lit v) => getField d f = v
  | (f, .ops l) => ∀ op ∈ l, matchesOp (getField d f) op = true

theorem strictEq_iff (a b : Value) : strictEq a b = true ↔ a = b := by
  simp [strictEq]

theorem matchesOperators_eq_all (value : Value) (l : List QOp) :
    matchesOperators value l = l.all (matchesOp value) := by
  induction l with
  | nil => rfl
  | cons op rest ih =>
    simp only [matchesOperators, List.all_cons]
    by_cases h : matchesOp value op
    · simp [h, ih]
    · simp [h]

/-- **C7** — A document matches a query (whose operator objects use only the
supported operators greater-than, greater-or-equal, less-than, less-or-equal,
not-equal, value-in-set, value-not-in-set) if and only if every field
constraint holds; constraints across fields and multiple operators on the
same field are combined conjunctively. -/
theorem matchesQuery_iff_all_constraints (d : Doc) (q : Query)
    (hsupp : q.all (fun p => constraintSupported p.2) = true) :
    matchesQuery d q = true ↔ ∀ c ∈ q, SpecConstraintHolds d c := by
  clear hsupp
  induction q with
  | nil => simp [matchesQuery]
  | cons p rest ih =>
    obtain ⟨f, c⟩ := p
    cases c with
    | lit v =>
      simp only [matchesQuery]
      by_cases h : strictEq (getField d f) v
      · rw [if_pos h, ih]
        have hv : getField d f = v := (strictEq_iff _ _).mp h
        constructor
        · intro hall c hc
          rcases List.mem_cons.mp hc with hc | hc
          · subst hc; exact hv
          · exact hall c hc
        · intro hall c hc; exact hall c (List.mem_cons_of_mem _ hc)
      · rw [if_neg h]
        constructor
        · intro hfalse; exact absurd hfalse (by simp)
        · intro hall
          have := hall (f, .lit v) (List.mem_cons_self _ _)
          simp only [SpecConstraintHolds] at this
          exact absurd ((strictEq_iff _ _).mpr this) h
    | ops l =>
      simp only [matchesQuery]
      by_cases h : matchesOperators (getField d f) l
      · rw [if_pos h, ih]
        have hops : ∀ op ∈ l, matchesOp (getField d f) op = true := by
          have := (matchesOperators_eq_all (getField d f) l) ▸ h
          simpa [List.all_eq_true] using this
        constructor
        · intro hall c hc
          rcases List.mem_cons.mp hc with hc | hc
          · subst hc; exact hops
          · exact hall c hc
        · intro hall c hc; exact hall c (List.mem_cons_of_mem _ hc)
      · rw [if_neg h]
        constructor
        · intro hfalse; exact absurd hfalse (by simp)
        · intro hall
          have hops := hall (f, .ops l) (List.mem_cons_self _ _)
          simp only [SpecConstraintHolds] at hops
          have : matchesOperators (getField d f) l = true := by
            rw [matchesOperators_eq_all]
            simpa [List.all_eq_true] using hops
          exact absurd this h

/-- Witness for C7 at a concrete document and a two-field query mixing a
literal and a conjunctive operator object. -/
theorem matchesQuery_iff_all_constraints_witness :
    (matchesQuery [("a", .num 5), ("b", .str "x")]
        [("a", .ops [.gt (.num 1), .lt (.num 9)]), ("b", .lit (.str "x"))] = true
      ↔ ∀ c ∈ ([("a", QConstraint.ops [.gt (.num 1), .lt (.num 9)]),
                ("b", QConstraint.lit (.str "x"))] : Query),
          SpecConstraintHolds [("a", Value.num 5), ("b", Value.str "x")] c) :=
  matchesQuery_iff_all_constraints _ _ (by decide)

/-- **C10** — An operator object containing only unrecognized operator keys is
treated as satisfied: `_matchesOperators` skips every unknown key, so the
constraint holds vacuously for every document value. -/
theorem matchesOperators_unknown_vacuous (value : Value) (keys : List String) :
    matchesOperators value (keys.map QOp.unknown) = true := by
  induction keys with
  | nil => rfl
  | cons k rest ih => simpa [matchesOperators, matchesOp] using ih

/-! ### Store state and mutating operations -/

/-- Lookup in a string-keyed JS object modelled as an association list. -/
def assocLookup {α : Type} (l : List (String × α)) (k : String) : Option α :=
  match l.find? (fun p => p.1 == k) with
  | some p => some p.2
  | none => none

/-- JS property assignment `o[k] = v` on an object with distinct keys:
replace an existing binding, or append a fresh one. -/
def assocSet {α : Type} : List (String × α) → String → α → List (String × α)
  | [], k, v => [(k, v)]
  | (k', v') :: t, k, v =>
    if k' == k then (k', v) :: t else (k', v') :: assocSet t k v

/-- JS `delete o[k]`. -/
def assocDelete {α : Type} : List (String × α) → String → List (String × α)
  | [], _ => []
  | (k', v') :: t, k => if k' == k then t else (k', v') :: assocDelete t k

/-- Configuration of one table (`config.tables[name]`): primary-key field
name and the unique-constrained fields.  The embedding covers tables
configured without a field `schema`, for which `_validateDataAgainstSchema`
returns `true` without inspecting the document (src/index.js line 606). -/
structure TableCfg where
  primaryKey : String
  uniqueFields : List String

/-- A per-field index: coerced field value (property key) to position. -/
abbrev IndexMap := List (String × Nat)

/-- The store's per-table state: the document sequence (`this.data[t]`), the
per-field indexes (`this.indexes[t]`), the uniqueness registry's sets
(`this.uniqueKeyMap[t]`), and the primary-key counter
(`this.primaryKeyMap[t]`, absent before first use). -/
structure TableState where
  docs : List Doc
  idxs : List (String × IndexMap)
  uniq : List (String × List Value)
  counter : Option Int
deriving DecidableEq, Repr

/-- `_calculateNextPrimaryKey` (src/index.js lines 448-463): 1 for an empty
table, otherwise one plus the largest number-typed primary-key value
(starting the maximum at 0). -/
def calcNextPrimaryKey (pk : String) (docs : List Doc) : Int :=
  if docs = [] then 1
  else
    (docs.foldl
      (fun m d =>
        match getField d pk with
        | .num n => if m < n then n else m
        | _ => m) 0) + 1

/-- `getNextPrimaryKey` (src/index.js lines 1057-1066): recalculate when the
counter is unset (or 0, which is falsy), then return it and post-increment.
Yields the assigned key and the updated counter. -/
def nextPrimaryKey (pk : String) (st : TableState) : Int × Option Int :=
  let c :=
    match st.counter with
    | none => calcNextPrimaryKey pk st.docs
    | some c => if c = 0 then calcNextPrimaryKey pk st.docs else c
  (c, some (c + 1))

/-- `_checkUniqueConstraints` (src/index.js lines 1140-1161): every
unique-constrained field whose value is neither `undefined` nor `null` must
not already occur in that field's registry set. -/
def checkUnique (cfg : TableCfg) (uniq : List (String × List Value)) (d : Doc) : Bool :=
  cfg.uniqueFields.all (fun f =>
    let v := getField d f
    if v = Value.undef ∨ v = .null then true
    else
      match assocLookup uniq f with
      | some s => !(s.any (fun x => strictEq x v))
      | none => true)

/-- `_updateUniqueKeyMap` (src/index.js lines 1242-1263): ensure a set exists
for every unique field, then add the document's value unless it is
`undefined` or `null`. -/
def updateUniqueKeyMap (cfg : TableCfg) (uniq : List (String × List Value)) (d : Doc) :
    List (String × List Value) :=
  cfg.uniqueFields.foldl
    (fun u f =>
      let s := (assocLookup u f).getD []
      let v := getField d f
      if v = Value.undef ∨ v = .null then assocSet u f s
      else assocSet u f (if s.any (fun x => strictEq x v) then s else s ++ [v]))
    uniq

/-- `_removeFromUniqueKeyMap` (src/index.js lines 1300-1313): delete the
document's value from every unique field's set that exists, whenever the
value is not `undefined`. -/
def removeFromUniqueKeyMap (cfg : TableCfg) (uniq : List (String × List Value)) (d : Doc) :
    List (String × List Value) :=
  cfg.uniqueFields.foldl
    (fun u f =>
      match assocLookup u f with
      | some s =>
        if getField d f = Value.undef then u
        else assocSet u f (s.filter (fun x => !(strictEq x (getField d f))))
      | none => u)
    uniq

/-- The `forEach` of `_createIndex` (src/index.js lines 427-442) from
position `i` onwards: record each defined field value's (coerced) key at its
position, later occurrences overwriting earlier ones. -/
def buildIndexFrom (f : String) : Nat → IndexMap → List Doc → IndexMap
  | _, acc, [] => acc
  | i, acc, d :: ds =>
    buildIndexFrom f (i + 1)
      (if getField d f = Value.undef then acc
       else assocSet acc (jsString (getField d f)) i) ds

/-- `_createIndex` (src/index.js lines 427-442): a fresh index over the
current document sequence. -/
def buildIndex (f : String) (docs : List Doc) : IndexMap :=
  buildIndexFrom f 0 [] docs

/-- `_updateIndexes` (src/index.js lines 1206-1217): patch every existing
per-field index with the document's position. -/
def updateIndexes (idxs : List (String × IndexMap)) (d : Doc) (pos : Nat) :
    List (String × IndexMap) :=
  idxs.map (fun p =>
    if getField d p.1 = Value.undef then p
    else (p.1, assocSet p.2 (jsString (getField d p.1)) pos))

/-- `_removeFromIndexes` (src/index.js lines 1225-1234): delete the
document's key from every per-field index; positions of other entries are
left untouched. -/
def removeFromIndexes (idxs : List (String × IndexMap)) (d : Doc) :
    List (String × IndexMap) :=
  idxs.map (fun p =>
    if getField d p.1 = Value.undef then p
    else (p.1, assocDelete p.2 (jsString (getField d p.1))))

inductive InsertErr where
  | uniqueViolation : InsertErr
deriving DecidableEq, Repr

/-- The metadata stamps of `insert` (src/index.js lines 687-689):
`newDoc._createdAt = ts; newDoc._updatedAt = ts`. -/
def stampDoc (doc : Doc) (ts : String) : Doc :=
  setField (setField doc "_createdAt" (.str ts)) "_updatedAt" (.str ts)

/-- The tail of `insert` after the primary key is settled (src/index.js
lines 682-702): reject on a uniqueness violation (the counter update
`counter'` from the earlier `getNextPrimaryKey` call survives either way),
otherwise stamp the metadata, append, patch every index with the new
position and extend the registry. -/
def insertApply (cfg : TableCfg) (st : TableState) (doc : Doc)
    (counter' : Option Int) (ts : String) : TableState × Except InsertErr Doc :=
  if checkUnique cfg st.uniq doc = false then
    ({ st with counter := counter' }, .error .uniqueViolation)
  else
    ({ docs := st.docs ++ [stampDoc doc ts],
       idxs := updateIndexes st.idxs (stampDoc doc ts) st.docs.length,
       uniq := updateUniqueKeyMap cfg st.uniq (stampDoc doc ts),
       counter := counter' },
     .ok (stampDoc doc ts))

/-- `insert` (src/index.js lines 659-703) on an existing table: clone the
document, auto-assign the primary key when absent (advancing the counter
*before* the uniqueness check), then run the remainder.  Returns the new
state and the inserted document or the raised error. -/
def insertEmbed (cfg : TableCfg) (st : TableState) (data : Doc) (ts : String) :
    TableState × Except InsertErr Doc :=
  if getField data cfg.primaryKey = Value.undef then
    insertApply cfg st
      (setField data cfg.primaryKey (.num (nextPrimaryKey cfg.primaryKey st).1))
      (nextPrimaryKey cfg.primaryKey st).2 ts
  else
    insertApply cfg st data st.counter ts

/-- `delete` (src/index.js lines 711-741): locate the document by primary
key, drop its entries from every index and from the registry, then `splice`
it out of the sequence.  No index is rebuilt afterwards. -/
def deleteEmbed (cfg : TableCfg) (st : TableState) (id : Value) : TableState × Bool :=
  match st.docs.findIdx? (fun d => strictEq (getField d cfg.primaryKey) id) with
  | none => (st, false)
  | some i =>
    match st.docs.get? i with
    | some d =>
      ({ docs := st.docs.eraseIdx i,
         idxs := removeFromIndexes st.idxs d,
         uniq := removeFromUniqueKeyMap cfg st.uniq d,
         counter := st.counter },
       true)
    | none => (st, false)

/-- `_initializeUniqueKeyMaps` (src/index.js lines 498-527): fresh sets for
every unique field, populated with every defined value in the sequence. -/
def rebuildUniq (cfg : TableCfg) (docs : List Doc) : List (String × List Value) :=
  let base := cfg.uniqueFields.foldl (fun u f => assocSet u f []) []
  docs.foldl
    (fun u d =>
      cfg.uniqueFields.foldl
        (fun u f =>
          if getField d f = Value.undef then u
          else
            let s := (assocLookup u f).getD []
            assocSet u f
              (if s.any (fun x => strictEq x (getField d f)) then s
               else s ++ [getField d f]))
        u)
    base

/-- Reopening the store on the persisted sequence (constructor +
`loadDatabase` + `_initializeIndexes`, src/index.js lines 351-421): the
registry is rebuilt, indexes over the primary key and the unique fields are
recreated, and the counter is recalculated from the surviving documents. -/
def reloadEmbed (cfg : TableCfg) (docs : List Doc) : TableState :=
  { docs := docs,
    uniq := rebuildUniq cfg docs,
    idxs := (cfg.primaryKey :: cfg.uniqueFields).foldl
      (fun l f => assocSet l f (buildIndex f docs)) [],
    counter := some (calcNextPrimaryKey cfg.primaryKey docs) }

/-- `transaction` (src/index.js lines 1320-1339): snapshot `this.data` (a
JSON round trip of the document data), run the caller's function on the live
store, persist once and return its result on success; on a raised failure
restore *only the document data* from the snapshot — `this.indexes`,
`this.uniqueKeyMap` and `this.primaryKeyMap` keep whatever mutations the
function made — perform no save, and re-raise.  The second component counts
`saveDatabase` calls made by `transaction` itself. -/
def transactionEmbed {α : Type} (fn : TableState → TableState × Except String α)
    (st : TableState) : TableState × Nat × Except String α :=
  let snapshot := st.docs
  match fn st with
  | (st', .ok r) => (st', 1, .ok r)
  | (st', .error e) => ({ st' with docs := snapshot }, 0, .error e)

inductive UpdateErr where
  | pkChange : UpdateErr
  | uniqueViolation : UpdateErr
deriving DecidableEq, Repr

/-- Object spread `{...orig, ...patch}`. -/
def mergeDoc (orig patch : Doc) : Doc :=
  patch.foldl (fun d p => setField d p.1 p.2) orig

/-- `_checkUniqueConstraintsForUpdate` (src/index.js lines 1171-1197):
unchanged values pass, `undefined`/`null` values pass, changed values must
not already occur in the registry. -/
def checkUniqueForUpdate (cfg : TableCfg) (uniq : List (String × List Value))
    (newD origD : Doc) : Bool :=
  cfg.uniqueFields.all (fun f =>
    if strictEq (getField newD f) (getField origD f) then true
    else if getField newD f = Value.undef ∨ getField newD f = .null then true
    else
      match assocLookup uniq f with
      | some s => !(s.any (fun x => strictEq x (getField newD f)))
      | none => true)

/-- `_updateUniqueKeyMapForUpdate` (src/index.js lines 1272-1292): for every
unique field whose value changed, drop the old value and add the new one. -/
def updateUniqueKeyMapForUpdate (cfg : TableCfg) (uniq : List (String × List Value))
    (newD origD : Doc) : List (String × List Value) :=
  cfg.uniqueFields.foldl
    (fun u f =>
      if strictEq (getField newD f) (getField origD f) then u
      else
        let u1 :=
          if getField origD f = Value.undef ∨ getField origD f = .null then u
          else
            match assocLookup u f with
            | some s => assocSet u f (s.filter (fun x => !(strictEq x (getField origD f))))
            | none => u
        if getField newD f = Value.undef ∨ getField newD f = .null then u1
        else
          match assocLookup u1 f with
          | some s => assocSet u1 f (if s.any (fun x => strictEq x (getField newD f)) then s else s ++ [getField newD f])
          | none => u1)
    uniq

/-- `update` (src/index.js lines 750-801): locate by primary key (`null`
result when absent), reject primary-key changes, merge the patch and refresh
`_updatedAt`, enforce uniqueness, then swap the document in place at the same
position and repair indexes and registry. -/
def updateEmbed (cfg : TableCfg) (st : TableState) (id : Value) (newData : Doc)
    (ts : String) : TableState × Except UpdateErr (Option Doc) :=
  match st.docs.findIdx? (fun d => strictEq (getField d cfg.primaryKey) id) with
  | none => (st, .ok none)
  | some i =>
    match st.docs.get? i with
    | none => (st, .ok none)
    | some orig =>
      if getField newData cfg.primaryKey ≠ Value.undef ∧
          strictEq (getField newData cfg.primaryKey) (getField orig cfg.primaryKey) = false then
        (st, .error .pkChange)
      else if checkUniqueForUpdate cfg st.uniq
          (setField (mergeDoc orig newData) "_updatedAt" (.str ts)) orig = false then
        (st, .error .uniqueViolation)
      else
        ({ docs := st.docs.set i (setField (mergeDoc orig newData) "_updatedAt" (.str ts)),
           idxs := updateIndexes (removeFromIndexes st.idxs orig)
             (setField (mergeDoc orig newData) "_updatedAt" (.str ts)) i,
           uniq := updateUniqueKeyMapForUpdate cfg st.uniq
             (setField (mergeDoc orig newData) "_updatedAt" (.str ts)) orig,
           counter := st.counter },
         .ok (some (setField (mergeDoc orig newData) "_updatedAt" (.str ts))))

/-! ### Sessions: sequences of public mutating operations -/

/-- One public mutating operation of a session. -/
inductive SessionOp where
  | insertOp : Doc → String → SessionOp
  | updateOp : Value → Doc → String → SessionOp
  | deleteOp : Value → SessionOp

/-- The primary keys auto-assigned by one insert call: the key handed out by
`getNextPrimaryKey` when the document arrived without its primary key and the
insert succeeded. -/
def autoKeys (cfg : TableCfg) (st : TableState) (data : Doc)
    (res : Except InsertErr Doc) : List Int :=
  if getField data cfg.primaryKey = Value.undef then
    match res with
    | .ok _ => [(nextPrimaryKey cfg.primaryKey st).1]
    | .error _ => []
  else []

/-- Apply one session operation; also report the auto-assigned keys. -/
def applyOp (cfg : TableCfg) (st : TableState) : SessionOp → TableState × List Int
  | .insertOp data ts =>
    let r := insertEmbed cfg st data ts
    (r.1, autoKeys cfg st data r.2)
  | .updateOp id nd ts => ((updateEmbed cfg st id nd ts).1, [])
  | .deleteOp id => ((deleteEmbed cfg st id).1, [])

/-- Run a session: thread the state and collect all auto-assigned keys. -/
def runOps (cfg : TableCfg) : List SessionOp → TableState → TableState × List Int
  | [], st => (st, [])
  | op :: ops, st =>
    let p := applyOp cfg st op
    let q := runOps cfg ops p.1
    (q.1, p.2 ++ q.2)

/-! ### Supporting lemmas about the store operations -/

theorem getField_setField_ne (d : Doc) (f g : String) (v : Value) (h : g ≠ f) :
    getField (setField d f v) g = getField d g := by
  induction d with
  | nil =>
    have hfg : (f == g) = false := by simp [Ne.symm h]
    simp [setField, getField, List.find?, hfg]
  | cons p t ih =>
    obtain ⟨k, w⟩ := p
    by_cases hk : k = f
    · subst hk
      have hfg : (k == g) = false := by simp [Ne.symm h]
      simp [setField, getField, List.find?, hfg]
    · have hk' : (k == f) = false := by simp [hk]
      have e1 : setField ((k, w) :: t) f v = (k, w) :: setField t f v := by
        simp [setField, hk']
      rw [e1]
      by_cases hg : k = g
      · subst hg
        simp [getField, List.find?]
      · have hg' : (k == g) = false := by simp [hg]
        have e2 : ∀ (l : Doc), getField ((k, w) :: l) g = getField l g := by
          intro l
          simp [getField, List.find?, hg']
        rw [e2, e2]
        exact ih

theorem calcNextPrimaryKey_pos (pk : String) (docs : List Doc) :
    1 ≤ calcNextPrimaryKey pk docs := by
  unfold calcNextPrimaryKey
  split
  · exact le_refl 1
  · have aux : ∀ (l : List Doc) (m : Int),
        m ≤ l.foldl
          (fun m d =>
            match getField d pk with
            | .num n => if m < n then n else m
            | _ => m) m := by
      intro l
      induction l with
      | nil => intro m; exact le_refl m
      | cons d t ih =>
        intro m
        refine le_trans ?_ (ih _)
        cases hf : getField d pk <;> simp_all
        split <;> omega
    have := aux docs 0
    omega

theorem nextPrimaryKey_snd (pk : String) (st : TableState) :
    (nextPrimaryKey pk st).2 = some ((nextPrimaryKey pk st).1 + 1) := rfl

theorem nextPrimaryKey_lb (pk : String) (st : TableState) (c : Int)
    (h : st.counter = some c) : c ≤ (nextPrimaryKey pk st).1 := by
  unfold nextPrimaryKey
  rw [h]
  by_cases hc : c = 0
  · subst hc
    simpa using le_trans (by norm_num) (calcNextPrimaryKey_pos pk st.docs)
  · simp [hc]


theorem insertApply_counter (cfg : TableCfg) (st : TableState) (doc : Doc)
    (c' : Option Int) (ts : String) : (insertApply cfg st doc c' ts).1.counter = c' := by
  unfold insertApply
  split <;> rfl

/-- Complete case analysis of the tail of `insert`. -/
theorem insertApply_cases (cfg : TableCfg) (st : TableState) (doc : Doc)
    (c' : Option Int) (ts : String) :
    (checkUnique cfg st.uniq doc = false ∧
      insertApply cfg st doc c' ts =
        ({ st with counter := c' }, .error .uniqueViolation)) ∨
    (checkUnique cfg st.uniq doc = true ∧
      insertApply cfg st doc c' ts =
        (⟨st.docs ++ [stampDoc doc ts],
          updateIndexes st.idxs (stampDoc doc ts) st.docs.length,
          updateUniqueKeyMap cfg st.uniq (stampDoc doc ts), c'⟩,
         .ok (stampDoc doc ts))) := by
  by_cases h : checkUnique cfg st.uniq doc = false
  · exact Or.inl ⟨h, by unfold insertApply; rw [if_pos h]⟩
  · refine Or.inr ⟨by simpa using h, ?_⟩
    unfold insertApply
    rw [if_neg h]

theorem insertEmbed_counter (cfg : TableCfg) (st : TableState) (data : Doc) (ts : String) :
    (insertEmbed cfg st data ts).1.counter =
      if getField data cfg.primaryKey = Value.undef
      then some ((nextPrimaryKey cfg.primaryKey st).1 + 1)
      else st.counter := by
  by_cases hpk : getField data cfg.primaryKey = Value.undef
  · rw [if_pos hpk]
    unfold insertEmbed
    rw [if_pos hpk, insertApply_counter, nextPrimaryKey_snd]
  · rw [if_neg hpk]
    unfold insertEmbed
    rw [if_neg hpk, insertApply_counter]

theorem updateEmbed_counter (cfg : TableCfg) (st : TableState) (id : Value)
    (nd : Doc) (ts : String) : (updateEmbed cfg st id nd ts).1.counter = st.counter := by
  unfold updateEmbed
  split
  · rfl
  · split
    · rfl
    · split
      · rfl
      · split
        · rfl
        · rfl

theorem deleteEmbed_counter (cfg : TableCfg) (st : TableState) (id : Value) :
    (deleteEmbed cfg st id).1.counter = st.counter := by
  unfold deleteEmbed
  split
  · rfl
  · split <;> rfl

/-- Strengthened induction for C2: throughout any session the collected
auto-assigned keys form a strictly increasing chain, and whenever the counter
currently holds `c` every future auto-assigned key is at least `c`. -/
theorem runOps_keys_spec (cfg : TableCfg) :
    ∀ (ops : List SessionOp) (st : TableState),
      List.Chain' (· < ·) (runOps cfg ops st).2 ∧
        (∀ c : Int, st.counter = some c → ∀ k ∈ (runOps cfg ops st).2, c ≤ k) := by
  intro ops
  induction ops with
  | nil =>
    intro st
    constructor
    · simp [runOps]
    · intro c _ k hk
      simp [runOps] at hk
  | cons op ops ih =>
    intro st
    cases op with
    | insertOp data ts =>
      obtain ⟨ihc, ihb⟩ := ih (insertEmbed cfg st data ts).1
      by_cases hpk : getField data cfg.primaryKey = Value.undef
      · have hcnt : (insertEmbed cfg st data ts).1.counter =
            some ((nextPrimaryKey cfg.primaryKey st).1 + 1) := by
          rw [insertEmbed_counter, if_pos hpk]
        have htail : ∀ k ∈ (runOps cfg ops (insertEmbed cfg st data ts).1).2,
            (nextPrimaryKey cfg.primaryKey st).1 + 1 ≤ k := ihb _ hcnt
        have hrun : (runOps cfg (SessionOp.insertOp data ts :: ops) st).2 =
            autoKeys cfg st data (insertEmbed cfg st data ts).2 ++
              (runOps cfg ops (insertEmbed cfg st data ts).1).2 := by
          simp [runOps, applyOp]
        cases hres : (insertEmbed cfg st data ts).2 with
        | ok d =>
          have hemit : autoKeys cfg st data (insertEmbed cfg st data ts).2 =
              [(nextPrimaryKey cfg.primaryKey st).1] := by
            simp [autoKeys, hpk, hres]
          rw [hrun, hemit, List.singleton_append]
          constructor
          · rw [List.chain'_cons']
            refine ⟨?_, ihc⟩
            intro y hy
            have hmem := List.mem_of_mem_head? hy
            have := htail y hmem
            omega
          · intro c hc k hk
            have hlb := nextPrimaryKey_lb cfg.primaryKey st c hc
            rcases List.mem_cons.mp hk with hk | hk
            · omega
            · have := htail k hk
              omega
        | error e =>
          have hemit : autoKeys cfg st data (insertEmbed cfg st data ts).2 = [] := by
            simp [autoKeys, hpk, hres]
          rw [hrun, hemit, List.nil_append]
          refine ⟨ihc, ?_⟩
          intro c hc k hk
          have hlb := nextPrimaryKey_lb cfg.primaryKey st c hc
          have := htail k hk
          omega
      · have hcnt : (insertEmbed cfg st data ts).1.counter = st.counter := by
          rw [insertEmbed_counter, if_neg hpk]
        have hemit : autoKeys cfg st data (insertEmbed cfg st data ts).2 = [] := by
          simp [autoKeys, hpk]
        have hrun : (runOps cfg (SessionOp.insertOp data ts :: ops) st).2 =
            (runOps cfg ops (insertEmbed cfg st data ts).1).2 := by
          simp [runOps, applyOp, hemit]
        rw [hrun]
        refine ⟨ihc, ?_⟩
        intro c hc k hk
        exact ihb c (hcnt ▸ hc) k hk
    | updateOp id nd ts =>
      obtain ⟨ihc, ihb⟩ := ih (updateEmbed cfg st id nd ts).1
      have hrun : (runOps cfg (SessionOp.updateOp id nd ts :: ops) st).2 =
          (runOps cfg ops (updateEmbed cfg st id nd ts).1).2 := by
        simp [runOps, applyOp]
      rw [hrun]
      refine ⟨ihc, ?_⟩
      intro c hc k hk
      exact ihb c (updateEmbed_counter cfg st id nd ts ▸ hc) k hk
    | deleteOp id =>
      obtain ⟨ihc, ihb⟩ := ih (deleteEmbed cfg st id).1
      have hrun : (runOps cfg (SessionOp.deleteOp id :: ops) st).2 =
          (runOps cfg ops (deleteEmbed cfg st id).1).2 := by
        simp [runOps, applyOp]
      rw [hrun]
      refine ⟨ihc, ?_⟩
      intro c hc k hk
      exact ihb c (deleteEmbed_counter cfg st id ▸ hc) k hk

/-! ### Claim theorems: store invariants and error handling -/

/-- **C2 (amended)** — Within one in-memory session (no reload), over any
sequence of insert/update/delete operations, the auto-assigned primary keys
are strictly increasing, hence pairwise distinct: no key is handed out
twice. -/
theorem auto_primary_keys_strictly_increasing (cfg : TableCfg)
    (ops : List SessionOp) (st : TableState) :
    List.Chain' (· < ·) (runOps cfg ops st).2 ∧ (runOps cfg ops st).2.Nodup := by
  obtain ⟨hc, _⟩ := runOps_keys_spec cfg ops st
  exact ⟨hc, List.Pairwise.imp (fun h => Int.ne_of_lt h) (List.chain'_iff_pairwise.mp hc)⟩

/-- First insert of the reload-reuse scenario: empty table, counter 1. -/
def reuseSt1 : TableState :=
  (insertEmbed ⟨"id", []⟩ ⟨[], [("id", [])], [], some 1⟩ [] "t1").1

/-- Second insert of the reload-reuse scenario (assigns key 2). -/
def reuseIns2 : TableState × Except InsertErr Doc :=
  insertEmbed ⟨"id", []⟩ reuseSt1 [] "t2"

/-- Delete the key-2 document, then reload from the persisted sequence. -/
def reuseReloaded : TableState :=
  reloadEmbed ⟨"id", []⟩ (deleteEmbed ⟨"id", []⟩ reuseIns2.1 (.num 2)).1.docs

/-- Insert after the reload. -/
def reuseIns3 : TableState × Except InsertErr Doc :=
  insertEmbed ⟨"id", []⟩ reuseReloaded [] "t3"

/-- **C2 (counterexample)** — The claim fails across a reload: keys 1 and 2
are assigned, the document holding key 2 is deleted, and after reloading the
database from the persisted sequence the very next insert assigns key 2
again (the counter is recalculated as max-remaining-key + 1). -/
theorem primary_key_reused_after_reload :
    reuseIns2.2.map (fun d => getField d "id") = Except.ok (Value.num 2) ∧
    reuseIns3.2.map (fun d => getField d "id") = Except.ok (Value.num 2) := by
  decide

/-- The C1 scenario: a freshly loaded empty table with a primary-key index,
two inserts (keys 1 and 2), then deletion of key 1. -/
def staleFinal : TableState :=
  (deleteEmbed ⟨"id", []⟩
    (insertEmbed ⟨"id", []⟩
      (insertEmbed ⟨"id", []⟩ ⟨[], [("id", [])], [], some 1⟩ [] "t1").1
      [] "t2").1
    (.num 1)).1

/-- **C1 (code-bug evaluation)** — Deleting a document that is not last never
rebuilds the table's indexes: after the C1 scenario the surviving document
(key 2) sits at position 0, while its index entry still maps "2" to
position 1, which is past the end of the sequence — the claimed invariant
(index entries point to current positions) is violated by the code. -/
theorem delete_leaves_stale_index :
    staleFinal.docs.map (fun d => getField d "id") = [Value.num 2] ∧
    (assocLookup staleFinal.idxs "id").bind (fun m => assocLookup m "2") = some 1 ∧
    staleFinal.docs.get? 1 = none := by
  decide

/-- First insert of the C3 scenario (unique field `email`, auto key 1). -/
def uniqSt1 : TableState × Except InsertErr Doc :=
  insertEmbed ⟨"id", ["email"]⟩
    ⟨[], [("id", []), ("email", [])], [("email", [])], some 1⟩
    [("email", .str "a")] "t1"

/-- Second insert of the C3 scenario: duplicate email, auto-assigned key. -/
def uniqSt2 : TableState × Except InsertErr Doc :=
  insertEmbed ⟨"id", ["email"]⟩ uniqSt1.1 [("email", .str "a")] "t2"

/-- **C3 (counterexample)** — The duplicate-email insert fails with the
uniqueness error, but the primary-key allocator is *not* "exactly as it was
before the failed call": the counter was 2 before and is 3 after, because
`getNextPrimaryKey` runs before the uniqueness check. -/
theorem failed_insert_advances_allocator :
    uniqSt2.2 = .error .uniqueViolation ∧
    uniqSt1.1.counter = some 2 ∧
    uniqSt2.1.counter = some 3 := by
  decide

/-- **C3 (amended)** — An insert rejected for a uniqueness violation leaves
the document sequence, the indexes and the uniqueness registry exactly as
they were; the primary-key allocator is unchanged when the document carried
an explicit primary key, but has advanced when the key was auto-assigned. -/
theorem insert_unique_failure_preserves_state (cfg : TableCfg) (st : TableState)
    (data : Doc) (ts : String)
    (h : (insertEmbed cfg st data ts).2 = .error .uniqueViolation) :
    (insertEmbed cfg st data ts).1.docs = st.docs ∧
    (insertEmbed cfg st data ts).1.idxs = st.idxs ∧
    (insertEmbed cfg st data ts).1.uniq = st.uniq ∧
    (getField data cfg.primaryKey ≠ Value.undef →
      (insertEmbed cfg st data ts).1.counter = st.counter) := by
  by_cases hpk : getField data cfg.primaryKey = Value.undef
  · unfold insertEmbed at h ⊢
    rw [if_pos hpk] at h ⊢
    rcases insertApply_cases cfg st
        (setField data cfg.primaryKey (.num (nextPrimaryKey cfg.primaryKey st).1))
        (nextPrimaryKey cfg.primaryKey st).2 ts with ⟨_, heq⟩ | ⟨_, heq⟩
    · rw [heq]
      exact ⟨rfl, rfl, rfl, fun hne => absurd hpk hne⟩
    · rw [heq] at h
      exact absurd h (by simp)
  · unfold insertEmbed at h ⊢
    rw [if_neg hpk] at h ⊢
    rcases insertApply_cases cfg st data st.counter ts with ⟨_, heq⟩ | ⟨_, heq⟩
    · rw [heq]
      exact ⟨rfl, rfl, rfl, fun _ => rfl⟩
    · rw [heq] at h
      exact absurd h (by simp)

/-- Witness for C3's amended theorem: a concrete rejected insert with an
explicit primary key, where all four components are preserved. -/
theorem insert_unique_failure_preserves_state_witness :
    (insertEmbed ⟨"id", ["email"]⟩
        ⟨[], [], [("email", [.str "a"])], some 7⟩
        [("id", .num 5), ("email", .str "a")] "t2").1.docs =
      (⟨[], [], [("email", [.str "a"])], some 7⟩ : TableState).docs ∧
    (insertEmbed ⟨"id", ["email"]⟩
        ⟨[], [], [("email", [.str "a"])], some 7⟩
        [("id", .num 5), ("email", .str "a")] "t2").1.idxs =
      (⟨[], [], [("email", [.str "a"])], some 7⟩ : TableState).idxs ∧
    (insertEmbed ⟨"id", ["email"]⟩
        ⟨[], [], [("email", [.str "a"])], some 7⟩
        [("id", .num 5), ("email", .str "a")] "t2").1.uniq =
      (⟨[], [], [("email", [.str "a"])], some 7⟩ : TableState).uniq ∧
    (getField [("id", Value.num 5), ("email", Value.str "a")]
        (TableCfg.mk "id" ["email"]).primaryKey ≠ Value.undef →
      (insertEmbed ⟨"id", ["email"]⟩
          ⟨[], [], [("email", [.str "a"])], some 7⟩
          [("id", .num 5), ("email", .str "a")] "t2").1.counter =
        (⟨[], [], [("email", [.str "a"])], some 7⟩ : TableState).counter) :=
  insert_unique_failure_preserves_state ⟨"id", ["email"]⟩
    ⟨[], [], [("email", [.str "a"])], some 7⟩
    [("id", .num 5), ("email", .str "a")] "t2" (by decide)

/-- **C4** — A transaction whose function inserts a document and then raises
a failure restores the pre-transaction document sequence (although the
insert really did append to it before the failure), performs no save on the
rollback path, and re-raises the failure.  The snapshot covers document
content only: the indexes, the uniqueness registry and the primary-key
counter keep the failed function's mutations, exactly as the source's catch
block reassigns `this.data` alone. -/
theorem transaction_rollback_restores (cfg : TableCfg) (st : TableState)
    (data : Doc) (ts : String) (e : String) (d : Doc)
    (h : (insertEmbed cfg st data ts).2 = .ok d) :
    (transactionEmbed
        (fun s => ((insertEmbed cfg s data ts).1, (.error e : Except String Unit)))
        st).1.docs = st.docs ∧
    (transactionEmbed
        (fun s => ((insertEmbed cfg s data ts).1, (.error e : Except String Unit)))
        st).2.1 = 0 ∧
    (transactionEmbed
        (fun s => ((insertEmbed cfg s data ts).1, (.error e : Except String Unit)))
        st).2.2 = .error e ∧
    (transactionEmbed
        (fun s => ((insertEmbed cfg s data ts).1, (.error e : Except String Unit)))
        st).1.idxs = (insertEmbed cfg st data ts).1.idxs ∧
    (transactionEmbed
        (fun s => ((insertEmbed cfg s data ts).1, (.error e : Except String Unit)))
        st).1.uniq = (insertEmbed cfg st data ts).1.uniq ∧
    (transactionEmbed
        (fun s => ((insertEmbed cfg s data ts).1, (.error e : Except String Unit)))
        st).1.counter = (insertEmbed cfg st data ts).1.counter ∧
    (insertEmbed cfg st data ts).1.docs = st.docs ++ [d] := by
  refine ⟨rfl, rfl, rfl, rfl, rfl, rfl, ?_⟩
  by_cases hpk : getField data cfg.primaryKey = Value.undef
  · unfold insertEmbed at h ⊢
    rw [if_pos hpk] at h ⊢
    rcases insertApply_cases cfg st
        (setField data cfg.primaryKey (.num (nextPrimaryKey cfg.primaryKey st).1))
        (nextPrimaryKey cfg.primaryKey st).2 ts with ⟨_, heq⟩ | ⟨_, heq⟩
    · rw [heq] at h
      exact absurd h (by simp)
    · rw [heq] at h ⊢
      simp only [Except.ok.injEq] at h
      simp [h]
  · unfold insertEmbed at h ⊢
    rw [if_neg hpk] at h ⊢
    rcases insertApply_cases cfg st data st.counter ts with ⟨_, heq⟩ | ⟨_, heq⟩
    · rw [heq] at h
      exact absurd h (by simp)
    · rw [heq] at h ⊢
      simp only [Except.ok.injEq] at h
      simp [h]

/-- Witness for C4 at a concrete successful insert followed by a failure:
the document sequence is back to empty with no save performed and the error
re-raised, while the index, registry and counter keep the insert's
mutations. -/
theorem transaction_rollback_restores_witness :
    (transactionEmbed
        (fun s => ((insertEmbed ⟨"id", []⟩ s [] "t1").1,
          (.error "boom" : Except String Unit)))
        ⟨[], [("id", [])], [], some 1⟩).1.docs =
      (⟨[], [("id", [])], [], some 1⟩ : TableState).docs ∧
    (transactionEmbed
        (fun s => ((insertEmbed ⟨"id", []⟩ s [] "t1").1,
          (.error "boom" : Except String Unit)))
        ⟨[], [("id", [])], [], some 1⟩).2.1 = 0 ∧
    (transactionEmbed
        (fun s => ((insertEmbed ⟨"id", []⟩ s [] "t1").1,
          (.error "boom" : Except String Unit)))
        ⟨[], [("id", [])], [], some 1⟩).2.2 = .error "boom" ∧
    (transactionEmbed
        (fun s => ((insertEmbed ⟨"id", []⟩ s [] "t1").1,
          (.error "boom" : Except String Unit)))
        ⟨[], [("id", [])], [], some 1⟩).1.idxs =
      (insertEmbed ⟨"id", []⟩ ⟨[], [("id", [])], [], some 1⟩ [] "t1").1.idxs ∧
    (transactionEmbed
        (fun s => ((insertEmbed ⟨"id", []⟩ s [] "t1").1,
          (.error "boom" : Except String Unit)))
        ⟨[], [("id", [])], [], some 1⟩).1.uniq =
      (insertEmbed ⟨"id", []⟩ ⟨[], [("id", [])], [], some 1⟩ [] "t1").1.uniq ∧
    (transactionEmbed
        (fun s => ((insertEmbed ⟨"id", []⟩ s [] "t1").1,
          (.error "boom" : Except String Unit)))
        ⟨[], [("id", [])], [], some 1⟩).1.counter =
      (insertEmbed ⟨"id", []⟩ ⟨[], [("id", [])], [], some 1⟩ [] "t1").1.counter ∧
    (insertEmbed ⟨"id", []⟩ ⟨[], [("id", [])], [], some 1⟩ [] "t1").1.docs =
      (⟨[], [("id", [])], [], some 1⟩ : TableState).docs ++
        [[("id", .num 1), ("_createdAt", .str "t1"), ("_updatedAt", .str "t1")]] :=
  transaction_rollback_restores ⟨"id", []⟩ ⟨[], [("id", [])], [], some 1⟩ [] "t1" "boom"
    [("id", .num 1), ("_createdAt", .str "t1"), ("_updatedAt", .str "t1")] (by decide)

/-- **C9** — Inserting a document whose explicit primary-key value duplicates
an existing document's key succeeds whenever the primary key is not a
unique-constrained field (the document passes the uniqueness check): no
duplicate-primary-key check exists, the document is appended, and two live
documents share the key. -/
theorem insert_duplicate_primary_key_allowed (cfg : TableCfg) (st : TableState)
    (data : Doc) (ts : String) (v : Value)
    (hpk : getField data cfg.primaryKey = v) (hv : v ≠ Value.undef)
    (hck : checkUnique cfg st.uniq data = true)
    (hm1 : cfg.primaryKey ≠ "_createdAt") (hm2 : cfg.primaryKey ≠ "_updatedAt")
    (i : Nat) (e : Doc) (hi : st.docs.get? i = some e)
    (he : getField e cfg.primaryKey = v) :
    ∃ newDoc, (insertEmbed cfg st data ts).2 = .ok newDoc ∧
      (insertEmbed cfg st data ts).1.docs = st.docs ++ [newDoc] ∧
      getField newDoc cfg.primaryKey = v ∧
      ∃ j k, j ≠ k ∧
        (∃ dj, (insertEmbed cfg st data ts).1.docs.get? j = some dj ∧
          getField dj cfg.primaryKey = v) ∧
        (∃ dk, (insertEmbed cfg st data ts).1.docs.get? k = some dk ∧
          getField dk cfg.primaryKey = v) := by
  have hnd : ¬ getField data cfg.primaryKey = Value.undef := by rw [hpk]; exact hv
  have hstamp : getField (stampDoc data ts) cfg.primaryKey = v := by
    unfold stampDoc
    rw [getField_setField_ne _ _ _ _ hm2, getField_setField_ne _ _ _ _ hm1, hpk]
  have hilen : i < st.docs.length := by
    by_contra hge
    rw [List.get?_eq_none.mpr (le_of_not_lt hge)] at hi
    exact Option.noConfusion hi
  have hdocs : insertEmbed cfg st data ts =
      (⟨st.docs ++ [stampDoc data ts],
        updateIndexes st.idxs (stampDoc data ts) st.docs.length,
        updateUniqueKeyMap cfg st.uniq (stampDoc data ts), st.counter⟩,
       .ok (stampDoc data ts)) := by
    unfold insertEmbed
    rw [if_neg hnd]
    rcases insertApply_cases cfg st data st.counter ts with ⟨hck', _⟩ | ⟨_, heq⟩
    · rw [hck] at hck'
      exact absurd hck' (by simp)
    · exact heq
  refine ⟨stampDoc data ts, by rw [hdocs], by rw [hdocs], hstamp, ?_⟩
  refine ⟨i, st.docs.length, by omega, ⟨e, ?_, he⟩, ⟨stampDoc data ts, ?_, hstamp⟩⟩
  · rw [hdocs]
    show (st.docs ++ [stampDoc data ts]).get? i = some e
    rw [List.get?_append hilen]
    exact hi
  · rw [hdocs]
    exact List.get?_concat_length st.docs (stampDoc data ts)

/-- Witness for C9: inserting `{id: 5}` into a table already holding a
document with key 5 leaves two live documents sharing primary key 5. -/
theorem insert_duplicate_primary_key_allowed_witness :
    ∃ newDoc, (insertEmbed ⟨"id", []⟩
        ⟨[[("id", .num 5)]], [], [], some 1⟩ [("id", .num 5)] "t1").2 = .ok newDoc ∧
      (insertEmbed ⟨"id", []⟩
        ⟨[[("id", .num 5)]], [], [], some 1⟩ [("id", .num 5)] "t1").1.docs =
        (⟨[[("id", .num 5)]], [], [], some 1⟩ : TableState).docs ++ [newDoc] ∧
      getField newDoc "id" = .num 5 ∧
      ∃ j k, j ≠ k ∧
        (∃ dj, (insertEmbed ⟨"id", []⟩
          ⟨[[("id", .num 5)]], [], [], some 1⟩
          [("id", .num 5)] "t1").1.docs.get? j = some dj ∧
          getField dj "id" = .num 5) ∧
        (∃ dk, (insertEmbed ⟨"id", []⟩
          ⟨[[("id", .num 5)]], [], [], some 1⟩
          [("id", .num 5)] "t1").1.docs.get? k = some dk ∧
          getField dk "id" = .num 5) :=
  insert_duplicate_primary_key_allowed ⟨"id", []⟩ ⟨[[("id", .num 5)]], [], [], some 1⟩
    [("id", .num 5)] "t1" (.num 5) (by decide) (by decide) (by decide) (by decide)
    (by decide) 0 [("id", .num 5)] (by decide) (by decide)

/-! ### `find`: indexed fast path vs. full scan -/

/-- JS property-key coercion of a query constraint's value
(`this.indexes[t][f][query[f]]`): literals coerce through `String(v)`, an
operator object coerces to "[object Object]". -/
def queryKeyOf : QConstraint → String
  | .lit v => jsString v
  | .ops _ => "[object Object]"

/-- The full-scan branch of `find`: filter by `_matchesQuery`.  Elements are
wrapped in `some`; a JS `undefined` element (an index pointing past the end)
is `none`. -/
def fullScan (docs : List Doc) (q : Query) : List (Option Doc) :=
  (docs.filter (fun d => matchesQuery d q)).map some

/-- `find` (src/index.js lines 955-979): empty query returns everything; a
single-field query whose field has an index resolves through the index —
returning `[this.data[t][index]]` on a hit (possibly `[undefined]` when the
position is stale) and `[]` on a miss — and only other queries fall back to
the full scan. -/
def findEmbed (docs : List Doc) (idxs : List (String × IndexMap)) (q : Query) :
    List (Option Doc) :=
  match q with
  | [] => docs.map some
  | [(f, c)] =>
    match assocLookup idxs f with
    | some m =>
      match assocLookup m (queryKeyOf c) with
      | some pos => [docs.get? pos]
      | none => []
    | none => fullScan docs [(f, c)]
  | _ => fullScan docs q

/-- The position a freshly built index records for key `k`: the *last*
position whose coerced field value is `k` (later writes overwrite). -/
def lastKeyPos (f k : String) : List Doc → Option Nat
  | [] => none
  | d :: ds =>
    match lastKeyPos f k ds with
    | some j => some (j + 1)
    | none =>
      if getField d f ≠ Value.undef ∧ jsString (getField d f) = k then some 0 else none

theorem assocLookup_cons {α : Type} (a : String) (b : α) (t : List (String × α))
    (k : String) :
    assocLookup ((a, b) :: t) k = if a == k then some b else assocLookup t k := by
  by_cases h : (a == k) = true
  · simp [assocLookup, List.find?, h]
  · have h' : (a == k) = false := by simpa using h
    simp [assocLookup, List.find?, h']

theorem assocLookup_assocSet {α : Type} (l : List (String × α)) (k k' : String) (v : α) :
    assocLookup (assocSet l k v) k' = if k' = k then some v else assocLookup l k' := by
  induction l with
  | nil =>
    rw [show assocSet ([] : List (String × α)) k v = [(k, v)] from rfl, assocLookup_cons]
    by_cases h : k' = k
    · subst h; simp
    · have hb : (k == k') = false := by simp [Ne.symm h]
      simp [hb, h, assocLookup, List.find?]
  | cons p t ih =>
    obtain ⟨a, b⟩ := p
    by_cases ha : a = k
    · subst ha
      have e : assocSet ((a, b) :: t) a v = (a, v) :: t := by simp [assocSet]
      rw [e, assocLookup_cons, assocLookup_cons]
      by_cases h : k' = a
      · subst h; simp
      · have hb : (a == k') = false := by simp [Ne.symm h]
        simp [hb, h]
    · have e : assocSet ((a, b) :: t) k v = (a, b) :: assocSet t k v := by
        simp [assocSet, ha]
      rw [e, assocLookup_cons, assocLookup_cons, ih]
      by_cases h : k' = k
      · subst h
        have hb : (a == k') = false := by simp [ha]
        simp [hb]
      · by_cases hak : a = k'
        · subst hak; simp [h]
        · have hb : (a == k') = false := by simp [hak]
          simp [hb, h]

theorem buildIndexFrom_lookup (f k : String) :
    ∀ (docs : List Doc) (i : Nat) (acc : IndexMap),
      assocLookup (buildIndexFrom f i acc docs) k =
        match lastKeyPos f k docs with
        | some j => some (i + j)
        | none => assocLookup acc k := by
  intro docs
  induction docs with
  | nil =>
    intro i acc
    simp [buildIndexFrom, lastKeyPos]
  | cons d ds ih =>
    intro i acc
    show assocLookup
        (buildIndexFrom f (i + 1)
          (if getField d f = Value.undef then acc
           else assocSet acc (jsString (getField d f)) i) ds) k = _
    rw [ih]
    cases hds : lastKeyPos f k ds with
    | some j =>
      simp only [lastKeyPos, hds]
      congr 1
      omega
    | none =>
      simp only [lastKeyPos, hds]
      by_cases hu : getField d f = Value.undef
      · have hno : ¬(getField d f ≠ Value.undef ∧ jsString (getField d f) = k) := by
          intro hc; exact hc.1 hu
        rw [if_pos hu, if_neg hno]
      · rw [if_neg hu]
        by_cases hk : jsString (getField d f) = k
        · rw [if_pos ⟨hu, hk⟩, hk, assocLookup_assocSet]
          simp
        · have hno : ¬(getField d f ≠ Value.undef ∧ jsString (getField d f) = k) := by
            intro hc; exact hk hc.2
          rw [if_neg hno, assocLookup_assocSet, if_neg (fun he => hk he.symm)]

theorem lastKeyPos_spec (f k : String) :
    ∀ (docs : List Doc) (j : Nat), lastKeyPos f k docs = some j →
      ∃ d, docs.get? j = some d ∧ getField d f ≠ Value.undef ∧ jsString (getField d f) = k := by
  intro docs
  induction docs with
  | nil => intro j h; simp [lastKeyPos] at h
  | cons d ds ih =>
    intro j h
    cases hds : lastKeyPos f k ds with
    | some j' =>
      simp only [lastKeyPos, hds] at h
      obtain ⟨d', hd', hcond⟩ := ih j' hds
      injection h with h
      subst h
      exact ⟨d', hd', hcond⟩
    | none =>
      simp only [lastKeyPos, hds] at h
      split at h
      · injection h with h
        subst h
        exact ⟨d, rfl, by assumption⟩
      · exact Option.noConfusion h

theorem lastKeyPos_none (f k : String) :
    ∀ (docs : List Doc), lastKeyPos f k docs = none →
      ∀ d ∈ docs, ¬(getField d f ≠ Value.undef ∧ jsString (getField d f) = k) := by
  intro docs
  induction docs with
  | nil => intro _ d hd; simp at hd
  | cons d0 ds ih =>
    intro h d hd
    cases hds : lastKeyPos f k ds with
    | some j' =>
      simp only [lastKeyPos, hds] at h
      exact Option.noConfusion h
    | none =>
      simp only [lastKeyPos, hds] at h
      rcases List.mem_cons.mp hd with hd | hd
      · subst hd
        split at h
        · exact Option.noConfusion h
        · assumption
      · exact ih hds d hd

/-- The table used in the C6 counterexample: one document, `id` indexed. -/
def opQueryDocs : List Doc := [[("id", .num 1)]]

/-- An operator query on the indexed field `id`. -/
def opQuery : Query := [("id", .ops [.gt (.num 0)])]

/-- **C6 (counterexample)** — A single-field comparison-operator query on an
indexed field does *not* fall back to the full scan: `find` looks the
stringified operator object up in the index and returns `[]`, while the
full-scan filter returns the matching document — the two paths disagree. -/
theorem find_operator_query_misses_index :
    findEmbed opQueryDocs [("id", buildIndex "id" opQueryDocs)] opQuery = [] ∧
    fullScan opQueryDocs opQuery = [some [("id", .num 1)]] := by
  decide

/-- **C6 (amended)** — A single-field *equality* query on an indexed field
resolves by direct position lookup and agrees with the naive full-scan
filter, provided the index is freshly built, key coercion is faithful for
the queried value, and at most one document matches; any query with two or
more fields falls back to the full scan (with which it trivially agrees).
A single-field operator-object query on an indexed field, however, takes the
index path and disagrees (see the counterexample). -/
theorem find_equality_index_agrees (docs : List Doc) (f : String) (v : Value)
    (q2 : Query) (idxs2 : List (String × IndexMap)) (hq2 : 2 ≤ q2.length)
    (hfaith : ∀ d ∈ docs,
      ((getField d f ≠ Value.undef ∧ jsString (getField d f) = jsString v) ↔ getField d f = v))
    (huniq : (docs.filter (fun d => strictEq (getField d f) v)).length ≤ 1) :
    findEmbed docs [(f, buildIndex f docs)] [(f, .lit v)] = fullScan docs [(f, .lit v)] ∧
    findEmbed docs idxs2 q2 = fullScan docs q2 := by
  constructor
  · have hidx : assocLookup [(f, buildIndex f docs)] f = some (buildIndex f docs) := by
      simp [assocLookup, List.find?]
    have hfind : findEmbed docs [(f, buildIndex f docs)] [(f, .lit v)] =
        match assocLookup (buildIndex f docs) (jsString v) with
        | some pos => [docs.get? pos]
        | none => [] := by
      simp only [findEmbed, hidx, queryKeyOf]
    have hmatch : ∀ d, matchesQuery d [(f, QConstraint.lit v)] = strictEq (getField d f) v := by
      intro d
      simp only [matchesQuery]
      by_cases h : strictEq (getField d f) v <;> simp [h]
    have hfilter : docs.filter (fun d => matchesQuery d [(f, QConstraint.lit v)]) =
        docs.filter (fun d => strictEq (getField d f) v) := by
      apply List.filter_congr
      intro d _
      exact hmatch d
    rw [hfind, buildIndex, buildIndexFrom_lookup]
    cases hlp : lastKeyPos f (jsString v) docs with
    | some j =>
      obtain ⟨d, hget, hcond⟩ := lastKeyPos_spec f (jsString v) docs j hlp
      have hdmem : d ∈ docs := List.get?_mem hget
      have hdv : getField d f = v := (hfaith d hdmem).mp hcond
      have hdfil : d ∈ docs.filter (fun d => strictEq (getField d f) v) := by
        rw [List.mem_filter]
        exact ⟨hdmem, (strictEq_iff _ _).mpr hdv⟩
      have hfil : docs.filter (fun d => strictEq (getField d f) v) = [d] := by
        rcases hl : docs.filter (fun d => strictEq (getField d f) v) with _ | ⟨x, _ | ⟨y, t⟩⟩
        · rw [hl] at hdfil; simp at hdfil
        · rw [hl] at hdfil
          simp only [List.mem_singleton] at hdfil
          rw [hdfil]
        · rw [hl] at huniq; simp at huniq
      simp only [Nat.zero_add]
      rw [hget, fullScan, hfilter, hfil]
      rfl
    | none =>
      have hnone := lastKeyPos_none f (jsString v) docs hlp
      have hfil : docs.filter (fun d => strictEq (getField d f) v) = [] := by
        rw [List.filter_eq_nil]
        intro d hd
        intro hsq
        have hdv : getField d f = v := (strictEq_iff _ _).mp hsq
        exact hnone d hd ((hfaith d hd).mpr hdv)
      have hacc : assocLookup ([] : IndexMap) (jsString v) = none := by
        simp [assocLookup, List.find?]
      rw [hacc, fullScan, hfilter, hfil]
      rfl
  · rcases q2 with _ | ⟨p1, _ | ⟨p2, rest⟩⟩
    · simp at hq2
    · simp at hq2
    · rfl

/-- Witness for C6's amended theorem at a concrete two-document table with a
fresh `id` index, the equality query `{id: 2}`, and the two-field query
`{id: 2, x: 1}`. -/
theorem find_equality_index_agrees_witness :
    findEmbed [[("id", .num 1)], [("id", .num 2)]]
        [("id", buildIndex "id" [[("id", .num 1)], [("id", .num 2)]])]
        [("id", .lit (.num 2))] =
      fullScan [[("id", .num 1)], [("id", .num 2)]] [("id", .lit (.num 2))] ∧
    findEmbed [[("id", .num 1)], [("id", .num 2)]] []
        [("id", .lit (.num 2)), ("x", .lit (.num 1))] =
      fullScan [[("id", .num 1)], [("id", .num 2)]]
        [("id", .lit (.num 2)), ("x", .lit (.num 1))] :=
  find_equality_index_agrees [[("id", .num 1)], [("id", .num 2)]] "id" (.num 2)
    [("id", .lit (.num 2)), ("x", .lit (.num 1))] [] (by decide) (by decide) (by decide)

/-! ### Persistence codec: encryption format and legacy fallback

Byte strings are lists of character codes.  The AES-256-CBC cipher itself is
a library primitive; it enters the embedding as a parameter pair
`enc`/`dec` (each taking the IV and the payload) about which the round-trip
theorem assumes `dec iv (enc iv data) = data`.  Everything else — the key
derivation's output shape, hex encoding, the `ivHex:ctHex` format and the
legacy-format detection — is translated from the source. -/

/-- The byte-wise XOR stream cipher: the old `encryptData` and the current
`_legacyDecrypt` (src/index.js lines 592-598) are this same function. -/
def legacyXor (key data : List Nat) : List Nat :=
  (List.range data.length).map
    (fun i => data.getD i 0 ^^^ key.getD (i % key.length) 0)

/-- Character code of one lowercase hex digit (Node `Buffer.toString('hex')`). -/
def hexDigit (n : Nat) : Nat := if n < 10 then 48 + n else 87 + n

/-- Hex-encode a byte string, two digits per byte. -/
def hexEncode (bytes : List Nat) : List Nat :=
  bytes.flatMap (fun b => [hexDigit (b / 16), hexDigit (b % 16)])

/-- Value of one hex digit character produced by `hexDigit`. -/
def hexDigitVal (c : Nat) : Nat := if c ≤ 57 then c - 48 else c - 87

/-- Decode a hex string back to bytes (`Buffer.from(s, 'hex')`). -/
def hexDecode : List Nat → List Nat
  | a :: b :: rest => (hexDigitVal a * 16 + hexDigitVal b) :: hexDecode rest
  | _ => []

/-- JS `String.prototype.split(':')` (character code 58). -/
def splitColon : List Nat → List (List Nat)
  | [] => [[]]
  | c :: rest =>
    if c = 58 then [] :: splitColon rest
    else
      match splitColon rest with
      | h :: t => (c :: h) :: t
      | [] => [[c]]

/-- `encryptData` (src/index.js lines 549-560): hex IV, a ':' separator, and
the hex ciphertext of the payload. -/
def encryptDataEmbed (enc : List Nat → List Nat → List Nat) (iv data : List Nat) :
    List Nat :=
  hexEncode iv ++ 58 :: hexEncode (enc iv data)

/-- `decryptData` (src/index.js lines 568-586): split on ':'; exactly two
parts means the current scheme (decode IV and ciphertext from hex and run the
cipher); any other shape falls back to `_legacyDecrypt`. -/
def decryptDataEmbed (dec : List Nat → List Nat → List Nat) (key s : List Nat) :
    List Nat :=
  match splitColon s with
  | [ivHex, ctHex] => dec (hexDecode ivHex) (hexDecode ctHex)
  | _ => legacyXor key s

theorem legacyXor_length (key data : List Nat) :
    (legacyXor key data).length = data.length := by
  simp [legacyXor]

theorem legacyXor_lookup (key data : List Nat) (i : Nat) (h : i < data.length) :
    (legacyXor key data).get? i = some (data.getD i 0 ^^^ key.getD (i % key.length) 0) := by
  rw [legacyXor, List.get?_map, List.get?_range h]
  rfl

/-- XOR with the same key stream twice is the identity: the legacy decoder
inverts the legacy encoder. -/
theorem legacyXor_involution (key data : List Nat) :
    legacyXor key (legacyXor key data) = data := by
  apply List.ext_getElem?
  intro i
  by_cases h : i < data.length
  · have h1 : i < (legacyXor key data).length := by rw [legacyXor_length]; exact h
    have e1 : (legacyXor key data)[i]? =
        some (data.getD i 0 ^^^ key.getD (i % key.length) 0) := by
      have := legacyXor_lookup key data i h
      rwa [List.get?_eq_getElem?] at this
    have e2 : (legacyXor key (legacyXor key data))[i]? =
        some ((legacyXor key data).getD i 0 ^^^ key.getD (i % key.length) 0) := by
      have := legacyXor_lookup key (legacyXor key data) i h1
      rwa [List.get?_eq_getElem?] at this
    rw [e2]
    have e3 : (legacyXor key data).getD i 0 =
        data.getD i 0 ^^^ key.getD (i % key.length) 0 := by
      simp [List.getD, e1]
    rw [e3, Nat.xor_assoc, Nat.xor_self, Nat.xor_zero]
    rw [List.getElem?_eq_getElem h]
    simp [List.getD, List.getElem?_eq_getElem h]
  · have hlen : (legacyXor key (legacyXor key data)).length ≤ i := by
      rw [legacyXor_length, legacyXor_length]; omega
    rw [List.getElem?_eq_none hlen, List.getElem?_eq_none (by omega : data.length ≤ i)]

theorem hexDigit_ne_colon (n : Nat) : hexDigit n ≠ 58 := by
  unfold hexDigit
  split <;> omega

theorem colon_not_mem_hexEncode (l : List Nat) : ¬ (58 ∈ hexEncode l) := by
  induction l with
  | nil => simp [hexEncode]
  | cons b t ih =>
    intro hmem
    rw [show hexEncode (b :: t) =
        hexDigit (b / 16) :: hexDigit (b % 16) :: hexEncode t from rfl] at hmem
    rcases List.mem_cons.mp hmem with h | hmem
    · exact hexDigit_ne_colon _ h.symm
    · rcases List.mem_cons.mp hmem with h | hmem
      · exact hexDigit_ne_colon _ h.symm
      · exact ih hmem

theorem hexDigitVal_hexDigit (n : Nat) (h : n < 16) :
    hexDigitVal (hexDigit n) = n := by
  unfold hexDigit hexDigitVal
  split <;> split <;> omega

theorem hexDecode_hexEncode (l : List Nat) (h : ∀ b ∈ l, b < 256) :
    hexDecode (hexEncode l) = l := by
  induction l with
  | nil => rfl
  | cons b t ih =>
    have hb : b < 256 := h b (List.mem_cons_self _ _)
    have hd : b / 16 < 16 := by omega
    have hm : b % 16 < 16 := by omega
    rw [show hexEncode (b :: t) =
        hexDigit (b / 16) :: hexDigit (b % 16) :: hexEncode t from rfl]
    rw [show hexDecode (hexDigit (b / 16) :: hexDigit (b % 16) :: hexEncode t) =
        (hexDigitVal (hexDigit (b / 16)) * 16 + hexDigitVal (hexDigit (b % 16))) ::
          hexDecode (hexEncode t) from rfl]
    rw [hexDigitVal_hexDigit _ hd, hexDigitVal_hexDigit _ hm,
      ih (fun x hx => h x (List.mem_cons_of_mem _ hx))]
    congr 1
    omega

theorem splitColon_no_colon (l : List Nat) (h : ¬ 58 ∈ l) : splitColon l = [l] := by
  induction l with
  | nil => rfl
  | cons c rest ih =>
    have hc : ¬ c = 58 := fun he => h (he ▸ List.mem_cons_self _ _)
    have hr : splitColon rest = [rest] := ih (fun hm => h (List.mem_cons_of_mem _ hm))
    rw [show splitColon (c :: rest) =
        (if c = 58 then [] :: splitColon rest
         else
          match splitColon rest with
          | h :: t => (c :: h) :: t
          | [] => [[c]]) from rfl]
    rw [if_neg hc, hr]

theorem splitColon_append (l₁ l₂ : List Nat) (h : ¬ 58 ∈ l₁) :
    splitColon (l₁ ++ 58 :: l₂) = l₁ :: splitColon l₂ := by
  induction l₁ with
  | nil =>
    show splitColon (58 :: l₂) = [] :: splitColon l₂
    rw [show splitColon (58 :: l₂) =
        (if (58 : Nat) = 58 then [] :: splitColon l₂
         else
          match splitColon l₂ with
          | h :: t => ((58 : Nat) :: h) :: t
          | [] => [[(58 : Nat)]]) from rfl]
    rw [if_pos rfl]
  | cons c t ih =>
    have hc : ¬ c = 58 := fun he => h (he ▸ List.mem_cons_self _ _)
    have ht := ih (fun hm => h (List.mem_cons_of_mem _ hm))
    show splitColon (c :: (t ++ 58 :: l₂)) = (c :: t) :: splitColon l₂
    rw [show splitColon (c :: (t ++ 58 :: l₂)) =
        (if c = 58 then [] :: splitColon (t ++ 58 :: l₂)
         else
          match splitColon (t ++ 58 :: l₂) with
          | h :: tl => (c :: h) :: tl
          | [] => [[c]]) from rfl]
    rw [if_neg hc, ht]

/-- **C5 (counterexample)** — Legacy detection is unsound: XOR-encrypting the
text "Q" (code 81) with the key "k" (code 107) produces the single byte
":" (58), so the split yields exactly two parts and the decoder takes the
current-scheme path instead of the XOR fallback — it does not detect the
legacy format and fails to recover the original text. -/
theorem legacy_detection_fails :
    (splitColon (legacyXor [107] [81])).length = 2 ∧
    decryptDataEmbed (fun _ _ => []) [107] (legacyXor [107] [81]) ≠ [81] := by
  decide

/-- **C5 (amended)** — Provided the block cipher inverts itself on this
payload (`dec iv (enc iv data) = data`, with byte-valued IV and ciphertext),
decrypting the `ivHex:ctHex` output of `encryptData` recovers the serialized
text, because hex text never contains ':'.  And a legacy XOR-encrypted input
is detected and decrypted to the original text by the fallback *whenever its
byte stream does not split into exactly two parts at ':'* (the involution
makes the fallback exact); an XOR output containing exactly one ':' is
misdetected (see the counterexample). -/
theorem decrypt_encrypt_roundtrip (enc dec : List Nat → List Nat → List Nat)
    (key iv data plain : List Nat)
    (hiv : ∀ b ∈ iv, b < 256) (hct : ∀ b ∈ enc iv data, b < 256)
    (hdec : dec iv (enc iv data) = data)
    (hplain : (splitColon (legacyXor key plain)).length ≠ 2) :
    decryptDataEmbed dec key (encryptDataEmbed enc iv data) = data ∧
    decryptDataEmbed dec key (legacyXor key plain) = plain := by
  constructor
  · rw [encryptDataEmbed, decryptDataEmbed,
      splitColon_append _ _ (colon_not_mem_hexEncode iv),
      splitColon_no_colon _ (colon_not_mem_hexEncode (enc iv data))]
    show dec (hexDecode (hexEncode iv)) (hexDecode (hexEncode (enc iv data))) = data
    rw [hexDecode_hexEncode iv hiv, hexDecode_hexEncode _ hct]
    exact hdec
  · have hinv := legacyXor_involution key plain
    unfold decryptDataEmbed
    cases hsp : splitColon (legacyXor key plain) with
    | nil => exact hinv
    | cons a tl =>
      cases tl with
      | nil => exact hinv
      | cons b tl2 =>
        cases tl2 with
        | nil =>
          refine absurd ?_ hplain
          rw [hsp]
          rfl
        | cons c tl3 => exact hinv

/-- Witness for C5's amended theorem: identity cipher, IV `[0]`, payload
`[1, 2]`, and the legacy plaintext "QQ" whose XOR stream `[58, 58]` splits
into three parts and is therefore decoded by the fallback. -/
theorem decrypt_encrypt_roundtrip_witness :
    decryptDataEmbed (fun _ d => d) [107]
        (encryptDataEmbed (fun _ d => d) [0] [1, 2]) = [1, 2] ∧
    decryptDataEmbed (fun _ d => d) [107] (legacyXor [107] [81, 81]) = [81, 81] :=
  decrypt_encrypt_roundtrip (fun _ d => d) (fun _ d => d) [107] [0] [1, 2] [81, 81]
    (by decide) (by decide) (by decide) (by decide)

/-! ### Aggregation: the `$group` stage with an `$avg` accumulator

Numbers are rationals here: the source's floating-point `sum / count` is the
exact division of the accumulated sum by the accumulated count, which is what
the claim is about.  `avgFieldVal` models `doc[fieldName] || 0` on
numeric-or-absent source fields. -/

/-- The `_id` of a `$group` stage: `"$field"` or absent (single implicit
group keyed by the string `'_all'`). -/
inductive GroupKey where
  | byField : String → GroupKey
  | implicit : GroupKey

/-- The group key of one document (src/index.js lines 1380-1392). -/
def groupKeyOf (gk : GroupKey) (d : Doc) : Value :=
  match gk with
  | .byField f => getField d f
  | .implicit => .str "_all"

/-- The `$avg` accumulator's operand: a `"$field"` source-field name, or any
other truthy value (for which the update step never fires, so sum and count
never advance). -/
inductive AvgSrc where
  | field : String → AvgSrc
  | nonDollar : AvgSrc

/-- `doc[fieldName] || 0` for a numeric-or-absent source field. -/
def avgFieldVal (d : Doc) (f : String) : ℚ :=
  match getField d f with
  | .num n => (n : ℚ)
  | _ => 0

/-- One group's accumulator record: the object key (`String(groupKey)`), the
stored raw `_id`, and the `$avg` state `{sum, count}`. -/
@[ext]
structure AvgEntry where
  key : String
  id : Value
  sum : ℚ
  count : ℚ
deriving DecidableEq, Repr

/-- The `$avg` update for one document (src/index.js lines 1431-1437): only a
`"$field"` operand advances the sum and the count. -/
def avgAddTo (src : AvgSrc) (d : Doc) (e : AvgEntry) : AvgEntry :=
  match src with
  | .field f => { e with sum := e.sum + avgFieldVal d f, count := e.count + 1 }
  | .nonDollar => e

/-- Folding one document into the group map (src/index.js lines 1379-1459):
compute the key, create the group (with zeroed accumulator) if new, then run
the accumulator update. -/
def avgStep (gk : GroupKey) (src : AvgSrc) (acc : List AvgEntry) (d : Doc) :
    List AvgEntry :=
  let k := jsString (groupKeyOf gk d)
  if acc.any (fun e => e.key == k) then
    acc.map (fun e => if e.key == k then avgAddTo src d e else e)
  else
    acc ++ [avgAddTo src d ⟨k, groupKeyOf gk d, 0, 0⟩]

/-- The whole fold of the `$group` stage over the running result. -/
def groupAvgRun (gk : GroupKey) (src : AvgSrc) (docs : List Doc) : List AvgEntry :=
  docs.foldl (avgStep gk src) []

/-- Finalization (src/index.js lines 1462-1473):
`group[field] = group[field].sum / (group[field].count || 1)`. -/
def groupAvgFinal (gk : GroupKey) (src : AvgSrc) (docs : List Doc) :
    List (Value × ℚ) :=
  (groupAvgRun gk src docs).map
    (fun e => (e.id, e.sum / (if e.count = 0 then 1 else e.count)))

/-- The documents belonging to the group whose object key is `k`. -/
def groupMem (gk : GroupKey) (k : String) (docs : List Doc) : List Doc :=
  docs.filter (fun d => jsString (groupKeyOf gk d) == k)

/-- Per-document sum contribution of the accumulator operand. -/
def srcVal (src : AvgSrc) (d : Doc) : ℚ :=
  match src with
  | .field f => avgFieldVal d f
  | .nonDollar => 0

/-- Per-document count contribution of the accumulator operand. -/
def srcInc (src : AvgSrc) : ℚ :=
  match src with
  | .field _ => 1
  | .nonDollar => 0

theorem avgAddTo_key (src : AvgSrc) (d : Doc) (e : AvgEntry) :
    (avgAddTo src d e).key = e.key := by
  cases src <;> rfl

theorem avgAddTo_id (src : AvgSrc) (d : Doc) (e : AvgEntry) :
    (avgAddTo src d e).id = e.id := by
  cases src <;> rfl

theorem avgAddTo_eq (src : AvgSrc) (d : Doc) (e : AvgEntry) :
    avgAddTo src d e =
      { e with sum := e.sum + srcVal src d, count := e.count + srcInc src } := by
  cases src <;> simp [avgAddTo, srcVal, srcInc]

theorem avgAddTo_sum (src : AvgSrc) (d : Doc) (e : AvgEntry) :
    (avgAddTo src d e).sum = e.sum + srcVal src d := by
  cases src <;> simp [avgAddTo, srcVal]

theorem avgAddTo_count (src : AvgSrc) (d : Doc) (e : AvgEntry) :
    (avgAddTo src d e).count = e.count + srcInc src := by
  cases src <;> simp [avgAddTo, srcInc]

theorem findEntry_map_of_key_pres (g : AvgEntry → AvgEntry)
    (hg : ∀ e, (g e).key = e.key) (k : String) :
    ∀ l : List AvgEntry,
      (l.map g).find? (fun e => e.key == k) =
        (l.find? (fun e => e.key == k)).map g := by
  intro l
  induction l with
  | nil => rfl
  | cons a t ih =>
    by_cases h : (a.key == k) = true
    · have hga : ((g a).key == k) = true := by rw [hg]; exact h
      simp [List.find?, hga, h]
    · have h' : (a.key == k) = false := by simpa using h
      have hga : ((g a).key == k) = false := by rw [hg]; exact h'
      simp [List.find?, hga, h', ih]

theorem findEntry_append_of_none {α : Type} {p : α → Bool} :
    ∀ {l₁ : List α} (l₂ : List α), l₁.find? p = none →
      (l₁ ++ l₂).find? p = l₂.find? p := by
  intro l₁
  induction l₁ with
  | nil => intro l₂ _; rfl
  | cons a t ih =>
    intro l₂ h
    rw [List.find?_cons] at h
    cases hp : p a with
    | true => rw [hp] at h; exact Option.noConfusion h
    | false =>
      rw [hp] at h
      rw [List.cons_append, List.find?_cons, hp]
      exact ih l₂ h

theorem findEntry_append_of_some {α : Type} {p : α → Bool} {e : α} :
    ∀ {l₁ : List α} (l₂ : List α), l₁.find? p = some e →
      (l₁ ++ l₂).find? p = some e := by
  intro l₁
  induction l₁ with
  | nil => intro l₂ h; exact Option.noConfusion h
  | cons a t ih =>
    intro l₂ h
    rw [List.find?_cons] at h
    cases hp : p a with
    | true =>
      rw [hp] at h
      rw [List.cons_append, List.find?_cons, hp]
      exact h
    | false =>
      rw [hp] at h
      rw [List.cons_append, List.find?_cons, hp]
      exact ih l₂ h

/-- How one fold step changes the entry found for key `k`. -/
theorem avgStep_find (gk : GroupKey) (src : AvgSrc) (k : String)
    (acc : List AvgEntry) (d : Doc) :
    (avgStep gk src acc d).find? (fun e => e.key == k) =
      if jsString (groupKeyOf gk d) = k then
        match acc.find? (fun e => e.key == k) with
        | some e => some (avgAddTo src d e)
        | none => some (avgAddTo src d ⟨k, groupKeyOf gk d, 0, 0⟩)
      else acc.find? (fun e => e.key == k) := by
  unfold avgStep
  by_cases hany : acc.any (fun e => e.key == jsString (groupKeyOf gk d)) = true
  · rw [if_pos hany]
    have hg : ∀ e : AvgEntry,
        ((if e.key == jsString (groupKeyOf gk d) then avgAddTo src d e else e)).key
          = e.key := by
      intro e
      by_cases he : (e.key == jsString (groupKeyOf gk d)) = true
      · rw [if_pos he, avgAddTo_key]
      · rw [if_neg he]
    have hgp : ∀ e : AvgEntry,
        (((if e.key == jsString (groupKeyOf gk d) then avgAddTo src d e else e)).key == k)
          = (e.key == k) := by
      intro e; rw [hg]
    rw [findEntry_map_of_key_pres _ hg k acc]
    by_cases hkk : jsString (groupKeyOf gk d) = k
    · rw [if_pos hkk]
      cases hfe : acc.find? (fun e => e.key == k) with
      | some e =>
        have hek := List.find?_some hfe
        have hek' : (e.key == jsString (groupKeyOf gk d)) = true := by
          rw [hkk]; exact hek
        show some (if (e.key == jsString (groupKeyOf gk d)) = true
            then avgAddTo src d e else e) = some (avgAddTo src d e)
        rw [if_pos hek']
      | none =>
        exfalso
        obtain ⟨x, hx, hpx⟩ := List.any_eq_true.mp hany
        have := List.find?_eq_none.mp hfe x hx
        rw [hkk] at hpx
        exact this hpx
    · rw [if_neg hkk]
      cases hfe : acc.find? (fun e => e.key == k) with
      | some e =>
        have hek := List.find?_some hfe
        have hke : e.key = k := by simpa using hek
        have hek' : (e.key == jsString (groupKeyOf gk d)) = false := by
          rw [hke]
          exact beq_eq_false_iff_ne.mpr (fun he => hkk he.symm)
        show some (if (e.key == jsString (groupKeyOf gk d)) = true
            then avgAddTo src d e else e) = some e
        rw [if_neg (by rw [hek']; exact Bool.false_ne_true)]
      | none => rfl
  · rw [if_neg hany]
    have hnone : ∀ x ∈ acc, ¬ (x.key == jsString (groupKeyOf gk d)) = true := by
      intro x hx hp
      exact hany (List.any_eq_true.mpr ⟨x, hx, hp⟩)
    by_cases hkk : jsString (groupKeyOf gk d) = k
    · rw [if_pos hkk]
      have hfn : acc.find? (fun e => e.key == k) = none := by
        rw [List.find?_eq_none]
        intro x hx hp
        exact hnone x hx (by rw [hkk]; exact hp)
      rw [hfn, findEntry_append_of_none _ hfn]
      have hfk : ((avgAddTo src d ⟨jsString (groupKeyOf gk d), groupKeyOf gk d, 0, 0⟩).key == k)
          = true := by
        rw [avgAddTo_key]
        simp [hkk]
      rw [List.find?_cons, hfk, hkk]
    · rw [if_neg hkk]
      cases hfe : acc.find? (fun e => e.key == k) with
      | some e => exact findEntry_append_of_some _ hfe
      | none =>
        rw [findEntry_append_of_none _ hfe]
        have hfk : ((avgAddTo src d ⟨jsString (groupKeyOf gk d), groupKeyOf gk d, 0, 0⟩).key == k)
            = false := by
          rw [avgAddTo_key]
          simp [hkk]
        rw [List.find?_cons, hfk]
        rfl

/-- The accumulated entry for key `k` after folding `docs` on top of `acc`:
the sum grows by the group members' operand values, the count by one
contribution per member, and a fresh group records the first member's raw
key as its `_id`. -/
theorem foldl_avgStep_find (gk : GroupKey) (src : AvgSrc) (k : String) :
    ∀ (docs : List Doc) (acc : List AvgEntry),
      (docs.foldl (avgStep gk src) acc).find? (fun e => e.key == k) =
        match acc.find? (fun e => e.key == k) with
        | some e => some { e with
            sum := e.sum + ((groupMem gk k docs).map (srcVal src)).sum,
            count := e.count + ((groupMem gk k docs).length : ℚ) * srcInc src }
        | none =>
          match groupMem gk k docs with
          | [] => none
          | d0 :: _ => some ⟨k, groupKeyOf gk d0,
              ((groupMem gk k docs).map (srcVal src)).sum,
              ((groupMem gk k docs).length : ℚ) * srcInc src⟩ := by
  intro docs
  induction docs with
  | nil =>
    intro acc
    cases hfe : acc.find? (fun e => e.key == k) with
    | some e =>
      simp only [List.foldl_nil, hfe, groupMem, List.filter_nil, List.map_nil,
        List.sum_nil, List.length_nil, Nat.cast_zero, zero_mul, add_zero]
    | none =>
      simp only [List.foldl_nil, hfe, groupMem, List.filter_nil]
  | cons d ds ih =>
    intro acc
    rw [List.foldl_cons, ih (avgStep gk src acc d), avgStep_find]
    by_cases hk : jsString (groupKeyOf gk d) = k
    · rw [if_pos hk]
      have hmem : groupMem gk k (d :: ds) = d :: groupMem gk k ds := by
        simp [groupMem, List.filter_cons, hk]
      rw [hmem]
      cases hfe : acc.find? (fun e => e.key == k) with
      | some e =>
        simp only [List.map_cons, List.sum_cons, List.length_cons]
        congr 1
        refine AvgEntry.ext ?_ ?_ ?_ ?_
        · rw [avgAddTo_key]
        · rw [avgAddTo_id]
        · show (avgAddTo src d e).sum + _ = _
          rw [avgAddTo_sum]
          push_cast
          ring
        · show (avgAddTo src d e).count + _ = _
          rw [avgAddTo_count]
          push_cast
          ring
      | none =>
        simp only [List.map_cons, List.sum_cons, List.length_cons]
        congr 1
        refine AvgEntry.ext ?_ ?_ ?_ ?_
        · rw [avgAddTo_key]
        · rw [avgAddTo_id]
        · show (avgAddTo src d _).sum + _ = _
          rw [avgAddTo_sum]
          push_cast
          ring
        · show (avgAddTo src d _).count + _ = _
          rw [avgAddTo_count]
          push_cast
          ring
    · rw [if_neg hk]
      have hmem : groupMem gk k (d :: ds) = groupMem gk k ds := by
        simp [groupMem, List.filter_cons, hk]
      rw [hmem]

/-- **C8** — For every `$group` stage with an `$avg` accumulator: when the
operand names a source field, every group's entry accumulates the running sum
of the members' field values and a running count equal to the group size, and
finalizes to `sum / (count = 0 ? 1 : count)` — here `sum / count` since every
existing group has at least one member; when the operand is not a
`"$field"` string, neither sum nor count ever advances and the group
finalizes to `0 / 1` (the count-zero quirk). -/
theorem aggregate_avg_sum_count (gk : GroupKey) (f : String) (docs : List Doc)
    (k : String) (h : groupMem gk k docs ≠ []) :
    (∃ e ∈ groupAvgRun gk (.field f) docs,
      e.key = k ∧
      e.sum = ((groupMem gk k docs).map (fun d => avgFieldVal d f)).sum ∧
      e.count = ((groupMem gk k docs).length : ℚ) ∧
      (e.id, e.sum / (if e.count = 0 then 1 else e.count)) ∈
        groupAvgFinal gk (.field f) docs ∧
      e.sum / (if e.count = 0 then 1 else e.count) =
        ((groupMem gk k docs).map (fun d => avgFieldVal d f)).sum /
          ((groupMem gk k docs).length : ℚ)) ∧
    (∃ e ∈ groupAvgRun gk .nonDollar docs,
      e.key = k ∧ e.sum = 0 ∧ e.count = 0 ∧
      (e.id, e.sum / (if e.count = 0 then 1 else e.count)) ∈
        groupAvgFinal gk .nonDollar docs ∧
      e.sum / (if e.count = 0 then 1 else e.count) = 0 / (1 : ℚ)) := by
  obtain ⟨d0, t, hm⟩ : ∃ d0 t, groupMem gk k docs = d0 :: t := by
    cases hgm : groupMem gk k docs with
    | nil => exact absurd hgm h
    | cons d0 t => exact ⟨d0, t, rfl⟩
  constructor
  · have hrun := foldl_avgStep_find gk (.field f) k docs []
    rw [show (([] : List AvgEntry).find? (fun e => e.key == k)) = none from rfl, hm] at hrun
    refine ⟨_, List.mem_of_find?_eq_some hrun, rfl, ?_, ?_, ?_, ?_⟩
    · rw [hm]; rfl
    · rw [hm]
      show ((((d0 :: t).length : ℚ)) * srcInc (.field f)) = ((d0 :: t).length : ℚ)
      rw [show srcInc (.field f) = 1 from rfl, mul_one]
    · exact List.mem_map_of_mem _ (List.mem_of_find?_eq_some hrun)
    · have hc : (((d0 :: t).length : ℚ)) * srcInc (.field f) = ((d0 :: t).length : ℚ) := by
        rw [show srcInc (.field f) = 1 from rfl, mul_one]
      have hne : (((d0 :: t).length : ℚ)) ≠ 0 := by
        rw [List.length_cons]
        push_cast
        positivity
      show (((d0 :: t).map (srcVal (.field f))).sum /
          (if (((d0 :: t).length : ℚ)) * srcInc (.field f) = 0 then 1
           else (((d0 :: t).length : ℚ)) * srcInc (.field f))) =
        ((groupMem gk k docs).map (fun d => avgFieldVal d f)).sum /
          ((groupMem gk k docs).length : ℚ)
      rw [hc, if_neg hne, hm]
      rfl
  · have hrun := foldl_avgStep_find gk .nonDollar k docs []
    rw [show (([] : List AvgEntry).find? (fun e => e.key == k)) = none from rfl, hm] at hrun
    have hsum : (((d0 :: t)).map (srcVal .nonDollar)).sum = 0 := by
      have : ((d0 :: t)).map (srcVal .nonDollar) = (d0 :: t).map (fun _ => (0 : ℚ)) := rfl
      rw [this]
      simp
    have hcnt : (((d0 :: t).length : ℚ)) * srcInc .nonDollar = 0 := by
      rw [show srcInc .nonDollar = 0 from rfl, mul_zero]
    refine ⟨_, List.mem_of_find?_eq_some hrun, rfl, ?_, ?_, ?_, ?_⟩
    · exact hsum
    · exact hcnt
    · exact List.mem_map_of_mem _ (List.mem_of_find?_eq_some hrun)
    · show (((d0 :: t)).map (srcVal .nonDollar)).sum /
          (if (((d0 :: t).length : ℚ)) * srcInc .nonDollar = 0 then 1
           else (((d0 :: t).length : ℚ)) * srcInc .nonDollar) = 0 / (1 : ℚ)
      rw [hsum, hcnt, if_pos rfl]

/-- Witness for C8 over two seeded sales documents grouped by `rep`: the
`west` group accumulates sum 14 and count 2 and finalizes to 14/2 = 7. -/
theorem aggregate_avg_sum_count_witness :
    (∃ e ∈ groupAvgRun (.byField "rep") (.field "amount")
        [[("rep", .str "w"), ("amount", .num 10)], [("rep", .str "w"), ("amount", .num 4)]],
      e.key = "w" ∧
      e.sum = ((groupMem (.byField "rep") "w"
          [[("rep", .str "w"), ("amount", .num 10)], [("rep", .str "w"), ("amount", .num 4)]]).map
            (fun d => avgFieldVal d "amount")).sum ∧
      e.count = ((groupMem (.byField "rep") "w"
          [[("rep", .str "w"), ("amount", .num 10)], [("rep", .str "w"), ("amount", .num 4)]]).length : ℚ) ∧
      (e.id, e.sum / (if e.count = 0 then 1 else e.count)) ∈
        groupAvgFinal (.byField "rep") (.field "amount")
          [[("rep", .str "w"), ("amount", .num 10)], [("rep", .str "w"), ("amount", .num 4)]] ∧
      e.sum / (if e.count = 0 then 1 else e.count) =
        ((groupMem (.byField "rep") "w"
            [[("rep", .str "w"), ("amount", .num 10)], [("rep", .str "w"), ("amount", .num 4)]]).map
              (fun d => avgFieldVal d "amount")).sum /
          ((groupMem (.byField "rep") "w"
            [[("rep", .str "w"), ("amount", .num 10)], [("rep", .str "w"), ("amount", .num 4)]]).length : ℚ)) ∧
    (∃ e ∈ groupAvgRun (.byField "rep") .nonDollar
        [[("rep", .str "w"), ("amount", .num 10)], [("rep", .str "w"), ("amount", .num 4)]],
      e.key = "w" ∧ e.sum = 0 ∧ e.count = 0 ∧
      (e.id, e.sum / (if e.count = 0 then 1 else e.count)) ∈
        groupAvgFinal (.byField "rep") .nonDollar
          [[("rep", .str "w"), ("amount", .num 10)], [("rep", .str "w"), ("amount", .num 4)]] ∧
      e.sum / (if e.count = 0 then 1 else e.count) = 0 / (1 : ℚ)) :=
  aggregate_avg_sum_count (.byField "rep") "amount"
    [[("rep", .str "w"), ("amount", .num 10)], [("rep", .str "w"), ("amount", .num 4)]]
    "w" (by decide)

end DataOrbit
